import Mathlib

/-!
Verification of the configuration-management core of the slurm-charms
repository (`pkgs/slurm-ops`): the options codec
(`slurm_ops/core/options.py`), the secret managers and environment-options
editing (`slurm_ops/core/base.py`), the backend `is_installed` predicate,
and the config-manager include/snapshot/merge layer described by the unit
tests (`tests/unit/test_config.py`).

Python functions are shallowly embedded as executable Lean definitions.
File-system state is explicit; fallible operations return `Option` or
`Except`.
-/

/-! ## Options codec (`slurm_ops/core/options.py`)

`marshal_options` uses `shlex.join` and `parse_options` uses `shlex.split`
from the Python standard library, so both are modelled here: `shlex.join`
quotes each token (`shlex.quote`) and joins with single spaces;
`shlex.split` is a POSIX lexer (whitespace splitting, single and double
quotes, backslash escapes, no comments). -/

/-- Whitespace characters recognized by the `shlex` lexer (`' \t\r\n'`). -/
def isShWS (c : Char) : Bool :=
  c = ' ' || c = '\t' || c = '\r' || c = '\n'

/-- Characters `shlex.quote` leaves unquoted: the ASCII letters, digits,
and the punctuation `_ @ % + = : , . / -` (the complement of the
`_find_unsafe` regex with `re.ASCII`). -/
def isSafeChar (c : Char) : Bool :=
  ('a' ≤ c && c ≤ 'z') || ('A' ≤ c && c ≤ 'Z') || ('0' ≤ c && c ≤ '9') ||
    c = '_' || c = '@' || c = '%' || c = '+' || c = '=' || c = ':' ||
    c = ',' || c = '.' || c = '/' || c = '-'

/-- Body of a single-quoted `shlex.quote` result: each `'` in the token is
written as `'"'"'` (close quote, double-quoted `'`, reopen quote). -/
def quoteBody : List Char → List Char
  | [] => []
  | c :: cs =>
      (if c = '\'' then ['\'', '"', '\'', '"', '\''] else [c]) ++ quoteBody cs

/-- `shlex.quote`: empty string becomes `''`; strings of safe characters
are left as-is; anything else is wrapped in single quotes with embedded
`'` escaped. -/
def shlexQuote (t : List Char) : List Char :=
  if t = [] then ['\'', '\'']
  else if t.all isSafeChar then t
  else '\'' :: (quoteBody t ++ ['\''])

/-- `' '.join` over already-quoted tokens, as done by `shlex.join`. -/
def shlexJoinChars : List (List Char) → List Char
  | [] => []
  | [t] => shlexQuote t
  | t :: ts => shlexQuote t ++ ' ' :: shlexJoinChars ts

/-- Lexer states of the POSIX `shlex` token reader: between tokens,
inside a word, inside single quotes, inside double quotes, after a
backslash in a word, after a backslash inside double quotes. -/
inductive LexSt : Type
  | ws
  | word
  | sq
  | dq
  | escW
  | escDQ
deriving DecidableEq

/-- One pass of the POSIX `shlex` lexer over the remaining characters.
`acc` is the current token accumulated in reverse. Returns `none` where
Python raises `ValueError` (unterminated quote, dangling escape).
Whenever the lexer is in `word` state a token is guaranteed to be
emitted: in POSIX mode quoted empty tokens count as tokens. -/
def lexRun : List Char → LexSt → List Char → Option (List (List Char))
  | [], .ws, _ => some []
  | [], .word, acc => some [acc.reverse]
  | [], .sq, _ => none
  | [], .dq, _ => none
  | [], .escW, _ => none
  | [], .escDQ, _ => none
  | c :: cs, .ws, _ =>
      if isShWS c then lexRun cs .ws []
      else if c = '\'' then lexRun cs .sq []
      else if c = '"' then lexRun cs .dq []
      else if c = '\\' then lexRun cs .escW []
      else lexRun cs .word [c]
  | c :: cs, .word, acc =>
      if isShWS c then (lexRun cs .ws []).map (acc.reverse :: ·)
      else if c = '\'' then lexRun cs .sq acc
      else if c = '"' then lexRun cs .dq acc
      else if c = '\\' then lexRun cs .escW acc
      else lexRun cs .word (c :: acc)
  | c :: cs, .sq, acc =>
      if c = '\'' then lexRun cs .word acc else lexRun cs .sq (c :: acc)
  | c :: cs, .dq, acc =>
      if c = '"' then lexRun cs .word acc
      else if c = '\\' then lexRun cs .escDQ acc
      else lexRun cs .dq (c :: acc)
  | c :: cs, .escW, acc => lexRun cs .word (c :: acc)
  | c :: cs, .escDQ, acc =>
      if c = '"' || c = '\\' then lexRun cs .dq (c :: acc)
      else lexRun cs .dq (c :: '\\' :: acc)

/-- `shlex.split`: run the lexer from the between-tokens state. -/
def shlexSplit (s : String) : Option (List String) :=
  (lexRun s.data .ws []).map (·.map List.asString)

/-- `shlex.join`: quote every token and join with single spaces. -/
def shlexJoin (ts : List String) : String :=
  (shlexJoinChars (ts.map String.data)).asString

/-- A value of the `OptionsMap`: Python `bool` or `str`. -/
inductive OptVal : Type
  | bool (b : Bool)
  | str (s : String)
deriving DecidableEq

/-- An ordered options mapping, as iterated by `marshal_options`. -/
abbrev OptionsMap := List (String × OptVal)

/-- `opt.startswith("-")`. -/
def startsWithDash (s : String) : Bool :=
  match s.data with
  | [] => false
  | c :: _ => c = '-'

/-- The token list built by the loop of `marshal_options`: a `True` flag
contributes its key, a `False` flag contributes nothing, and a string
value contributes the key followed by the value. -/
def marshalTokens (m : OptionsMap) : List String :=
  m.flatMap fun kv =>
    match kv.2 with
    | .bool b => if b then [kv.1] else []
    | .str v => [kv.1, v]

/-- `marshal_options` (`options.py:24`): build the token list and
`shlex.join` it. -/
def marshal_options (m : OptionsMap) : String :=
  shlexJoin (marshalTokens m)

/-- Python `dict` assignment `result[k] = v` on an insertion-ordered
association list: update the value in place if the key exists, else
append. -/
def dictInsert : List (String × OptVal) → String → OptVal → List (String × OptVal)
  | [], k, v => [(k, v)]
  | (k', v') :: rest, k, v =>
      if k' = k then (k', v) :: rest else (k', v') :: dictInsert rest k v

/-- The indexed loop of `parse_options` (`options.py:59`): a token
starting with `-` is a flag; it is boolean `True` when it is the last
token or the next token also starts with `-`, otherwise its value is the
next token.  Non-flag tokens are skipped. -/
def parseGo : List String → List (String × OptVal) → List (String × OptVal)
  | [], acc => acc
  | [o], acc =>
      if startsWithDash o then dictInsert acc o (.bool true) else acc
  | o :: o2 :: rest, acc =>
      if startsWithDash o then
        if startsWithDash o2 then parseGo (o2 :: rest) (dictInsert acc o (.bool true))
        else parseGo (o2 :: rest) (dictInsert acc o (.str o2))
      else parseGo (o2 :: rest) acc

/-- `parse_options` (`options.py:49`): `shlex.split` then the flag walk.
`none` models the `ValueError` that `shlex.split` raises on malformed
input. -/
def parse_options (s : String) : Option OptionsMap :=
  (shlexSplit s).map (parseGo · [])

/-! ## Environment-options editing (`slurm_ops/core/base.py:613-628`) -/

/-- State of a service environment file, reduced to the value of its
`<SERVICE>_OPTIONS` variable: `none` when the variable is unset
(`EnvManager.get` returned `None`). -/
abbrev EnvState := Option String

/-- `SlurmManager._load_options` (`base.py:620`): parse the variable,
treating an unset variable as the empty string (`... or ""`).  `none`
models the `ValueError` propagating out of `shlex.split`. -/
def _load_options (st : EnvState) : Option OptionsMap :=
  parse_options (st.getD "")

/-- `SlurmManager._save_options` (`base.py:624`): marshal the options and
store them as the variable's new value. -/
def _save_options (opts : OptionsMap) : EnvState :=
  some (marshal_options opts)

/-- An exception escaping an `edit` scope: either the load step failed to
parse, or the caller's block raised `e`. -/
inductive EditErr (ε : Type) : Type
  | parseFail
  | raised (e : ε)

/-- `SlurmManager._edit_options` (`base.py:613`), a `contextmanager`
whose body is `f`: load the options, run the body, and save only on
normal completion — the generator has no `try`/`finally`, so an
exception at the `yield` skips `_save_options` entirely.  Returns the
final file state together with the exception, if any, that propagated
out of the `with` block. -/
def _edit_options (f : OptionsMap → Except ε OptionsMap) (st : EnvState) :
    EnvState × Option (EditErr ε) :=
  match _load_options st with
  | none => (st, some .parseFail)
  | some opts =>
      match f opts with
      | .error e => (st, some (.raised e))
      | .ok opts' => (_save_options opts', none)

/-- An injected Editor capability (spec §2): parse file content into a
document, serialize a document back, and the empty document used when
the file does not exist.  The concrete editors live in the external
`slurmutils` package. -/
structure Editor (Doc : Type) where
  parse : String → Except Unit Doc
  dump : Doc → String
  empty : Doc

/-- Modelled from the spec: `ConfigManager.edit` (`config.py:67`, spec
§4.1).  The file-level behavior is implemented by the missing
`slurmutils` editor `edit` context manager: load the current document
(or an empty one if the file is absent), run the caller's mutation, and
dump on normal exit only; on any exception inside the scope the file is
left untouched.  The first component is the file's content after the
call (`none` = file absent). -/
def configEdit (ed : Editor Doc) (f : Doc → Except ε Doc) (file : Option String) :
    Option String × Option (EditErr ε) :=
  match (match file with | none => Except.ok ed.empty | some bs => ed.parse bs) with
  | .error _ => (file, some .parseFail)
  | .ok d =>
      match f d with
      | .error e => (file, some (.raised e))
      | .ok d' => (some (ed.dump d'), none)

/-! ## Secret managers (`slurm_ops/core/base.py:486-557`) and base64 -/

/-- Attributes of one file on disk: its content, access mode, owning
user and owning group. -/
structure FileAttr (γ : Type) where
  content : γ
  mode : Nat
  user : String
  group : String
deriving DecidableEq

/-- `Path.write_text` / `Path.write_bytes`: truncate an existing file,
keeping its mode and ownership, or create it with the ambient creation
attributes `c` (umask and effective uid/gid) when it does not exist. -/
def writeFile (c : FileAttr γ) (data : γ) (st : Option (FileAttr γ)) : FileAttr γ :=
  match st with
  | none => { c with content := data }
  | some f => { f with content := data }

/-- `Path.chmod`. -/
def chmodFile (m : Nat) (f : FileAttr γ) : FileAttr γ :=
  { f with mode := m }

/-- `shutil.chown`. -/
def chownFile (u g : String) (f : FileAttr γ) : FileAttr γ :=
  { f with user := u, group := g }

/-- `_JWTSecretManager.set` (`base.py:498`): write the PEM text, then
`chmod(0o600)`, then `chown` to the configured user and group. -/
def jwtSet (u g : String) (c : FileAttr String) (secret : String)
    (st : Option (FileAttr String)) : FileAttr String :=
  chownFile u g (chmodFile 0o600 (writeFile c secret st))

/-- `_JWTSecretManager.generate` (`base.py:504`): serialize a fresh
2048-bit RSA private key to PEM (the PEM text is a parameter here, the
key material being random) and `set` it. -/
def jwtGenerate (u g : String) (c : FileAttr String) (pem : String)
    (st : Option (FileAttr String)) : FileAttr String :=
  jwtSet u g c pem st

/-- The base64 alphabet used by `base64.b64encode`/`b64decode`. -/
def b64Alphabet : List Char :=
  "ABCDEFGHIJKLMNOPQRSTUVWXYZabcdefghijklmnopqrstuvwxyz0123456789+/".data

/-- The character encoding a 6-bit group. -/
def b64Char (n : Nat) : Char :=
  b64Alphabet.getD n 'A'

/-- Position of a character in a list, used to invert the alphabet. -/
def charIdx : List Char → Char → Nat → Option Nat
  | [], _, _ => none
  | a :: as, c, i => if a = c then some i else charIdx as c (i + 1)

/-- The 6-bit group encoded by a character, `none` for non-alphabet
characters. -/
def b64DecChar (c : Char) : Option Nat :=
  charIdx b64Alphabet c 0

/-- `base64.b64encode` on a byte sequence: 3-byte blocks become 4
characters; a 2-byte remainder becomes 3 characters and `=`; a 1-byte
remainder becomes 2 characters and `==`. -/
def b64EncodeChars : List Nat → List Char
  | b1 :: b2 :: b3 :: rest =>
      b64Char (b1 / 4) :: b64Char (b1 % 4 * 16 + b2 / 16) ::
        b64Char (b2 % 16 * 4 + b3 / 64) :: b64Char (b3 % 64) :: b64EncodeChars rest
  | [b1, b2] => [b64Char (b1 / 4), b64Char (b1 % 4 * 16 + b2 / 16), b64Char (b2 % 16 * 4), '=']
  | [b1] => [b64Char (b1 / 4), b64Char (b1 % 4 * 16), '=', '=']
  | [] => []

/-- `base64.b64encode(...).decode()`. -/
def b64encode (bs : List Nat) : String :=
  (b64EncodeChars bs).asString

/-- `base64.b64decode` on 4-character groups, with `=` padding allowed
only in the final group; `none` models `binascii.Error` (invalid
character or length).  Agrees with the Python decoder on every canonical
encoding. -/
def b64DecodeChars : List Char → Option (List Nat)
  | [] => some []
  | c1 :: c2 :: c3 :: c4 :: rest =>
      if c3 = '=' ∧ c4 = '=' ∧ rest = [] then
        match b64DecChar c1, b64DecChar c2 with
        | some e1, some e2 => some [e1 * 4 + e2 / 16]
        | _, _ => none
      else if c4 = '=' ∧ rest = [] then
        match b64DecChar c1, b64DecChar c2, b64DecChar c3 with
        | some e1, some e2, some e3 => some [e1 * 4 + e2 / 16, e2 % 16 * 16 + e3 / 4]
        | _, _, _ => none
      else
        match b64DecChar c1, b64DecChar c2, b64DecChar c3, b64DecChar c4,
            b64DecodeChars rest with
        | some e1, some e2, some e3, some e4, some bs =>
            some ((e1 * 4 + e2 / 16) :: (e2 % 16 * 16 + e3 / 4) :: (e3 % 4 * 64 + e4) :: bs)
        | _, _, _, _, _ => none
  | _ => none

/-- `base64.b64decode` of a string. -/
def b64decode (s : String) : Option (List Nat) :=
  b64DecodeChars s.data

/-- `_SlurmSecretManager.get` (`base.py:534`): read the key file's raw
bytes and base64-encode them; reading a missing file raises
(`none`). -/
def slurmKeyGet (st : Option (FileAttr (List Nat))) : Option String :=
  st.map fun f => b64encode f.content

/-- `_SlurmSecretManager.set` (`base.py:538`): base64-decode the secret
and write the bytes, then `chmod(0o600)` and `chown`.  A decoding
failure (`binascii.Error`) propagates before anything is written. -/
def slurmKeySet (u g : String) (c : FileAttr (List Nat)) (secret : String)
    (st : Option (FileAttr (List Nat))) : Option (FileAttr (List Nat)) :=
  (b64decode secret).map fun bs => chownFile u g (chmodFile 0o600 (writeFile c bs st))

/-- `_SlurmSecretManager.generate` (`base.py:544`): 2048 random bytes
(`secrets.token_bytes`, supplied here as the parameter `key`),
base64-encoded and passed to `set`. -/
def slurmKeyGenerate (u g : String) (c : FileAttr (List Nat)) (key : List Nat)
    (st : Option (FileAttr (List Nat))) : Option (FileAttr (List Nat)) :=
  slurmKeySet u g c (b64encode key) st

/-! ## Backend `is_installed` (`slurm_ops/core/base.py:105,429`) -/

/-- The exceptions the embedded `version()` implementations can raise:
the declared `SlurmOpsError`, or the `IndexError` escaping from
`version.split(maxsplit=1)[0]` in `_SnapManager.version` when the snap
`installed` field is an empty or whitespace-only string. -/
inductive PyErr : Type
  | slurmOpsError (message : String)
  | indexError
deriving DecidableEq

/-- Whitespace for Python `str.split()` (ASCII part). -/
def isPyWS (c : Char) : Bool :=
  c = ' ' || c = '\t' || c = '\r' || c = '\n' || c = '\x0b' || c = '\x0c'

/-- `_AptManager.version` (`base.py:170`): the installed Debian
package's version (the package database is abstracted as
`installedPkg`); a missing package raises `PackageNotFoundError`, which
is caught and re-raised as `SlurmOpsError`. -/
def aptVersion (service : String) (installedPkg : Option String) :
    Except PyErr String :=
  match installedPkg with
  | some v => .ok v
  | none => .error (.slurmOpsError ("unable to retrieve " ++ service ++ " version"))

/-- `_SnapManager.version` (`base.py:437`): the `installed` field of
`snap info slurm` (abstracted as `installedField`, `none` when the
field is missing); a missing field raises `SlurmOpsError`, otherwise the
result is `version.split(maxsplit=1)[0]`, which raises `IndexError`
when the string has no words. -/
def snapVersion (installedField : Option String) : Except PyErr String :=
  match installedField with
  | none => .error (.slurmOpsError "unable to retrieve snap info. ensure slurm is correctly installed")
  | some v =>
      match v.data.dropWhile isPyWS with
      | [] => .error .indexError
      | c :: cs => .ok ((c :: cs).takeWhile (fun x => !isPyWS x)).asString

/-- `OpsManager.is_installed` (`base.py:105`) and the identical
`_SnapManager.is_installed` (`base.py:429`): `try: self.version();
return True; except SlurmOpsError: return False`.  Only `SlurmOpsError`
is caught; any other exception propagates (`error`). -/
def is_installed (version : Except PyErr String) : Except PyErr Bool :=
  match version with
  | .ok _ => .ok true
  | .error (.slurmOpsError _) => .ok false
  | .error e => .error e

/-! ## Config-manager include/snapshot/merge layer

The `SlurmConfigManager` exercised by `tests/unit/test_config.py`
(`includes`/`snapshots` mappings, `save`/`restore`/`merge`) is not under
`src/`; only its tests are.  Its operations are modelled from the spec
(§4.2, §4.3) over an explicit directory state. -/

/-- A directory listing: file names with contents, in discovery order. -/
abbrev FileSys (γ : Type) := List (String × γ)

/-- Lookup by file name (first match). -/
def assocLookup : List (String × V) → String → Option V
  | [], _ => none
  | (n, v) :: rest, k => if n = k then some v else assocLookup rest k

/-- Write a file: replace the entry in place when the name exists,
append it otherwise (also the semantics of Python `dict` assignment). -/
def assocUpsert : List (String × V) → String → V → List (String × V)
  | [], k, v => [(k, v)]
  | (n, w) :: rest, k, v =>
      if n = k then (n, v) :: rest else (n, w) :: assocUpsert rest k v

/-- Fuel-driven glob matching with the `*` wildcard, the only wildcard
occurring in the discovery patterns `<primary-name>.*` and
`<primary-name>.*.snapshot`.  The fuel argument makes the recursion
structural; `globMatch` always supplies enough. -/
def globGo : Nat → List Char → List Char → Bool
  | 0, _, _ => false
  | _ + 1, [], s => s.isEmpty
  | f + 1, p :: ps, s =>
      if p = '*' then
        match s with
        | [] => globGo f ps []
        | _ :: cs => globGo f ps s || globGo f ('*' :: ps) cs
      else
        match s with
        | [] => false
        | c :: cs => p = c && globGo f ps cs

/-- Modelled from the spec (§4.2): glob pattern matching as used by
include and snapshot discovery. -/
def globMatch (ps s : List Char) : Bool :=
  globGo (ps.length + s.length + 1) ps s

/-- `suf` is a suffix of `s`. -/
def strSuffix (suf s : String) : Bool :=
  suf.data.isSuffixOf s.data

/-- `pre` is a prefix of `s`. -/
def strStarts (pre s : String) : Bool :=
  pre.data.isPrefixOf s.data

/-- Modelled from the spec (§4.2, `includes`): the names in the
primary's directory matching the glob `<primary-name>.*`, excluding
names ending in `.snapshot`, in discovery order. -/
def includesNames (p : String) (fs : FileSys γ) : List String :=
  (fs.map Prod.fst).filter fun n =>
    globMatch (p.data ++ ['.', '*']) n.data && !strSuffix ".snapshot" n

/-- Modelled from the spec (§4.3, `snapshots`): the snapshot files
associated with the primary, discovered by glob. -/
def snapshotNames (p : String) (fs : FileSys γ) : List String :=
  (fs.map Prod.fst).filter fun n =>
    globMatch (p.data ++ ['.', '*']) n.data && strSuffix ".snapshot" n

/-- A config-manager handle: the directory and name of the managed
file. -/
structure Handle : Type where
  dir : String
  name : String
deriving DecidableEq

/-- The absolute path of the handled file. -/
def Handle.path (h : Handle) : String :=
  h.dir ++ "/" ++ h.name

/-- Modelled from the spec (§4.2): indexing the `includes` mapping with
a fragment name returns a handle at the would-be path whether or not
the file exists, and touches nothing on disk — the state is passed
through so the absence of writes is explicit. -/
def includesGet (dir : String) (fs : FileSys γ) (k : String) : FileSys γ × Handle :=
  (fs, ⟨dir, k⟩)

/-- Modelled from the spec (§4.1, `dump`): serialize the document and
overwrite (or create) the handle's file. -/
def handleDump (ed : Editor Doc) (h : Handle) (d : Doc) (fs : FileSys String) :
    FileSys String :=
  assocUpsert fs h.name (ed.dump d)

/-- Modelled from the spec (§4.1, `edit`): `configEdit` on the handle's
file; the file is created at the dump step when it did not exist. -/
def handleEdit (ed : Editor Doc) (h : Handle) (f : Doc → Except ε Doc)
    (fs : FileSys String) : FileSys String × Option (EditErr ε) :=
  match configEdit ed f (assocLookup fs h.name) with
  | (some bs, none) => (assocUpsert fs h.name bs, none)
  | (_, e) => (fs, e)

/-- Python `dict.update` of document `d` by document `u`: keys of `u`
override, the other keys of `d` are kept; the semantics of applying one
include onto the primary document (spec §4.3, `merge`). -/
def docUpdate (d : List (String × V)) : List (String × V) → List (String × V)
  | [] => d
  | (k, v) :: rest => docUpdate (assocUpsert d k v) rest

/-- Modelled from the spec (§4.3, `merge`): load every current
include's document and apply each, in discovery order, as an update
onto the primary document inside an `edit` scope (the primary's current
state, or the empty document when it is absent, is the starting
point). -/
def mergeOp (p : String) (fs : FileSys (List (String × V))) :
    FileSys (List (String × V)) :=
  assocUpsert fs p
    (((includesNames p fs).filterMap (assocLookup fs)).foldl docUpdate
      ((assocLookup fs p).getD []))

/-- Copy jobs `(source, destination)` executed in order, reading each
source from the current state; a missing source is skipped without
error. -/
def copyFiles (jobs : List (String × String)) (fs : FileSys γ) : FileSys γ :=
  jobs.foldl
    (fun acc j =>
      match assocLookup acc j.1 with
      | none => acc
      | some v => assocUpsert acc j.2 v)
    fs

/-- Modelled from the spec (§4.3, `save`): copy the primary file and
every include to `<name>.snapshot`, skipping files that do not
exist. -/
def saveOp (p : String) (fs : FileSys γ) : FileSys γ :=
  copyFiles ((p :: includesNames p fs).map fun n => (n, n ++ ".snapshot")) fs

/-- Python-style stripping of the `.snapshot` suffix. -/
def stripSnapshot (n : String) : String :=
  (n.data.take (n.data.length - ".snapshot".length)).asString

/-- Modelled from the spec (§4.3, `restore`): for every snapshot
associated with the primary, copy it back onto the path obtained by
stripping the `.snapshot` suffix, overwriting current content;
restoring when no snapshot exists is a no-op for that file. -/
def restoreOp (p : String) (fs : FileSys γ) : FileSys γ :=
  copyFiles ((snapshotNames p fs).map fun n => (n, stripSnapshot n)) fs

/-- A sequence of file writes, the shape of an arbitrary mutation of
the directory through `dump`/`edit` calls. -/
def applyWrites (ws : List (String × γ)) (fs : FileSys γ) : FileSys γ :=
  ws.foldl (fun acc w => assocUpsert acc w.1 w.2) fs

/-! ## Lemmas: the shlex lexer undoes `shlex.join` -/

theorem safeChar_props {c : Char} (h : isSafeChar c = true) :
    isShWS c = false ∧ c ≠ '\'' ∧ c ≠ '"' ∧ c ≠ '\\' := by
  refine ⟨?_, ?_, ?_, ?_⟩
  · cases hw : isShWS c with
    | false => rfl
    | true =>
        exfalso
        simp only [isShWS, Bool.or_eq_true, decide_eq_true_eq] at hw
        rcases hw with ((rfl | rfl) | rfl) | rfl <;> exact absurd h (by decide)
  · rintro rfl; exact absurd h (by decide)
  · rintro rfl; exact absurd h (by decide)
  · rintro rfl; exact absurd h (by decide)

theorem lexRun_safe :
    ∀ (cs : List Char), cs.all isSafeChar = true →
      ∀ (acc r : List Char), lexRun (cs ++ r) .word acc = lexRun r .word (cs.reverse ++ acc)
  | [], _, acc, r => by simp
  | c :: cs, h, acc, r => by
      simp only [List.all_cons, Bool.and_eq_true] at h
      obtain ⟨hws, hsq, hdq, hbs⟩ := safeChar_props h.1
      have step : lexRun ((c :: cs) ++ r) .word acc = lexRun (cs ++ r) .word (c :: acc) := by
        simp only [List.cons_append, lexRun, hws, Bool.false_eq_true, if_false,
          if_neg hsq, if_neg hdq, if_neg hbs]
        rfl
      rw [step, lexRun_safe cs h.2 (c :: acc) r, List.reverse_cons, List.append_assoc,
        List.singleton_append]

theorem lexStep_sq_close (l acc : List Char) :
    lexRun ('\'' :: l) .sq acc = lexRun l .word acc := rfl

theorem lexStep_sq_other {c : Char} (hc : c ≠ '\'') (l acc : List Char) :
    lexRun (c :: l) .sq acc = lexRun l .sq (c :: acc) := by
  show (if c = '\'' then _ else _) = _
  rw [if_neg hc]

theorem lexStep_word_sq (l acc : List Char) :
    lexRun ('\'' :: l) .word acc = lexRun l .sq acc := rfl

theorem lexStep_word_dq (l acc : List Char) :
    lexRun ('"' :: l) .word acc = lexRun l .dq acc := rfl

theorem lexStep_dq_sqChar (l acc : List Char) :
    lexRun ('\'' :: l) .dq acc = lexRun l .dq ('\'' :: acc) := rfl

theorem lexStep_dq_close (l acc : List Char) :
    lexRun ('"' :: l) .dq acc = lexRun l .word acc := rfl

theorem lexStep_ws_sq (l acc : List Char) :
    lexRun ('\'' :: l) .ws acc = lexRun l .sq [] := rfl

theorem lexStep_word_space (l acc : List Char) :
    lexRun (' ' :: l) .word acc = (lexRun l .ws []).map (acc.reverse :: ·) := rfl

theorem lexRun_quoteBody :
    ∀ (cs acc r : List Char),
      lexRun (quoteBody cs ++ '\'' :: r) .sq acc = lexRun r .word (cs.reverse ++ acc)
  | [], acc, r => by
      show lexRun ('\'' :: r) .sq acc = _
      rw [lexStep_sq_close]
      simp
  | c :: cs, acc, r => by
      by_cases hc : c = '\''
      · subst hc
        have e : quoteBody ('\'' :: cs) ++ '\'' :: r =
            '\'' :: '"' :: '\'' :: '"' :: '\'' :: (quoteBody cs ++ '\'' :: r) := by
          simp [quoteBody]
        rw [e, lexStep_sq_close, lexStep_word_dq, lexStep_dq_sqChar, lexStep_dq_close,
          lexStep_word_sq, lexRun_quoteBody cs ('\'' :: acc) r, List.reverse_cons,
          List.append_assoc, List.singleton_append]
      · have e : quoteBody (c :: cs) ++ '\'' :: r = c :: (quoteBody cs ++ '\'' :: r) := by
          simp [quoteBody, hc]
        rw [e, lexStep_sq_other hc, lexRun_quoteBody cs (c :: acc) r, List.reverse_cons,
          List.append_assoc, List.singleton_append]

theorem lexRun_quote (t r : List Char) :
    lexRun (shlexQuote t ++ r) .ws [] = lexRun r .word t.reverse := by
  by_cases h0 : t = []
  · subst h0
    rfl
  · by_cases hsafe : t.all isSafeChar = true
    · obtain ⟨c, cs, rfl⟩ := List.exists_cons_of_ne_nil h0
      simp only [List.all_cons, Bool.and_eq_true] at hsafe
      obtain ⟨hws, hsq, hdq, hbs⟩ := safeChar_props hsafe.1
      have e1 : shlexQuote (c :: cs) = c :: cs := by
        simp only [shlexQuote, if_neg h0]
        rw [if_pos]
        simp [hsafe.1, hsafe.2]
      rw [e1]
      have step : lexRun ((c :: cs) ++ r) .ws [] = lexRun (cs ++ r) .word [c] := by
        simp only [List.cons_append, lexRun, hws, Bool.false_eq_true, if_false,
          if_neg hsq, if_neg hdq, if_neg hbs]
        rfl
      rw [step, lexRun_safe cs hsafe.2 [c] r, List.reverse_cons]
    · have e1 : shlexQuote t = '\'' :: (quoteBody t ++ ['\'']) := by
        simp only [shlexQuote, if_neg h0]
        rw [if_neg hsafe]
      rw [e1]
      have e2 : ('\'' :: (quoteBody t ++ ['\''])) ++ r = '\'' :: (quoteBody t ++ '\'' :: r) := by
        simp
      rw [e2, lexStep_ws_sq, lexRun_quoteBody t [] r, List.append_nil]

theorem lexRun_join : ∀ (toks : List (List Char)), lexRun (shlexJoinChars toks) .ws [] = some toks
  | [] => by simp [shlexJoinChars, lexRun]
  | [t] => by
      have : shlexJoinChars [t] = shlexQuote t ++ [] := by simp [shlexJoinChars]
      rw [this, lexRun_quote t [], lexRun, List.reverse_reverse]
  | t :: t2 :: ts => by
      have e1 : shlexJoinChars (t :: t2 :: ts) = shlexQuote t ++ ' ' :: shlexJoinChars (t2 :: ts) := by
        simp [shlexJoinChars]
      rw [e1, lexRun_quote t (' ' :: shlexJoinChars (t2 :: ts)), lexStep_word_space,
        lexRun_join (t2 :: ts), List.reverse_reverse]
      rfl

/-! ## Lemmas: the flag walk of `parse_options` undoes `marshal_options` -/

theorem dictInsert_fresh :
    ∀ (acc : List (String × OptVal)) (k : String) (v : OptVal),
      k ∉ acc.map Prod.fst → dictInsert acc k v = acc ++ [(k, v)]
  | [], _, _, _ => rfl
  | (k', v') :: rest, k, v, h => by
      simp only [List.map_cons, List.mem_cons] at h
      push_neg at h
      rw [dictInsert, if_neg (by exact fun e => h.1 e.symm), dictInsert_fresh rest k v h.2,
        List.cons_append]

theorem parseGo_skip {s : String} (hs : startsWithDash s = false) :
    ∀ (T : List String) (acc : List (String × OptVal)), parseGo (s :: T) acc = parseGo T acc
  | [], acc => by
      show (if startsWithDash s = true then dictInsert acc s (.bool true) else acc) = acc
      rw [if_neg (by simp [hs])]
  | o2 :: rest, acc => by
      show (if startsWithDash s = true then _ else parseGo (o2 :: rest) acc) = _
      rw [if_neg (by simp [hs])]

theorem marshalTokens_cons (k : String) (v : OptVal) (m : OptionsMap) (hv : v ≠ .bool false) :
    ∃ ts, marshalTokens ((k, v) :: m) = k :: ts ∧
      (∀ s, v = .str s → ts = s :: marshalTokens m) ∧ (v = .bool true → ts = marshalTokens m) := by
  cases v with
  | bool b =>
      cases b with
      | false => exact absurd rfl hv
      | true => exact ⟨marshalTokens m, by simp [marshalTokens], by simp, fun _ => rfl⟩
  | str s =>
      exact ⟨s :: marshalTokens m, by simp [marshalTokens], fun s' hs' => by
        cases hs'; rfl, by simp⟩

theorem parseGo_marshal :
    ∀ (m : OptionsMap) (acc : List (String × OptVal)),
      (∀ p ∈ m, startsWithDash p.1 = true) →
      (∀ p ∈ m, ∀ s, p.2 = OptVal.str s → startsWithDash s = false) →
      (∀ p ∈ m, p.2 ≠ OptVal.bool false) →
      (m.map Prod.fst).Nodup →
      (∀ p ∈ m, p.1 ∉ acc.map Prod.fst) →
      parseGo (marshalTokens m) acc = acc ++ m
  | [], acc, _, _, _, _, _ => by simp [marshalTokens, parseGo]
  | (k, v) :: m', acc, hdash, hval, hfalse, hnodup, hdisj => by
      have hv : v ≠ OptVal.bool false := hfalse (k, v) (by simp)
      have hk : startsWithDash k = true := hdash (k, v) (by simp)
      simp only [List.map_cons, List.nodup_cons] at hnodup
      have hins : dictInsert acc k = fun v => acc ++ [(k, v)] := by
        funext v'
        exact dictInsert_fresh acc k v' (hdisj (k, v) (by simp))
      have hdisj' : ∀ p ∈ m', p.1 ∉ (acc ++ [(k, v)]).map Prod.fst := by
        intro p hp
        simp only [List.map_append, List.mem_append, List.map_cons, List.map_nil,
          List.mem_singleton, List.mem_cons]
        rintro (ha | hb)
        · exact hdisj p (by simp [hp]) ha
        · simp only [List.not_mem_nil, or_false] at hb
          exact hnodup.1 (hb ▸ List.mem_map_of_mem Prod.fst hp)
      obtain ⟨ts, hts, htsStr, htsTrue⟩ := marshalTokens_cons k v m' hv
      cases v with
      | bool b =>
          cases b with
          | false => exact absurd rfl hv
          | true =>
              rw [hts, htsTrue rfl]
              cases hm' : marshalTokens m' with
              | nil =>
                  have : m' = [] := by
                    cases m' with
                    | nil => rfl
                    | cons q qs =>
                        obtain ⟨ts', hts', _, _⟩ :=
                          marshalTokens_cons q.1 q.2 qs (hfalse q (by simp))
                        rw [show (q.1, q.2) :: qs = q :: qs from by simp] at hts'
                        rw [hts'] at hm'
                        exact absurd hm' (by simp)
                  subst this
                  rw [parseGo, if_pos (by simp [hk]), hins]
              | cons t2 ts2 =>
                  have ht2 : startsWithDash t2 = true := by
                    cases m' with
                    | nil => simp [marshalTokens] at hm'
                    | cons q qs =>
                        obtain ⟨ts', hts', _, _⟩ :=
                          marshalTokens_cons q.1 q.2 qs (hfalse q (by simp))
                        rw [show (q.1, q.2) :: qs = q :: qs from by simp] at hts'
                        rw [hts'] at hm'
                        have : q.1 = t2 := by
                          injection hm' with h1 _
                        exact this ▸ hdash q (by simp)
                  rw [parseGo, if_pos (by simp [hk]), if_pos (by simp [ht2]), hins, ← hm',
                    parseGo_marshal m' (acc ++ [(k, OptVal.bool true)])
                      (fun p hp => hdash p (by simp [hp]))
                      (fun p hp => hval p (by simp [hp]))
                      (fun p hp => hfalse p (by simp [hp])) hnodup.2
                      (by exact hdisj')]
                  simp
      | str s =>
          rw [hts, htsStr s rfl]
          have hsdash : startsWithDash s = false :=
            hval (k, OptVal.str s) (by simp) s rfl
          rw [parseGo, if_pos (by simp [hk]), if_neg (by simp [hsdash]), hins,
            parseGo_skip hsdash, parseGo_marshal m' (acc ++ [(k, OptVal.str s)])
              (fun p hp => hdash p (by simp [hp]))
              (fun p hp => hval p (by simp [hp]))
              (fun p hp => hfalse p (by simp [hp])) hnodup.2
              (by exact hdisj')]
          simp

theorem map_asString_data : ∀ (l : List String), (l.map String.data).map List.asString = l
  | [] => rfl
  | s :: rest => by
      rw [List.map_cons, List.map_cons, map_asString_data rest]
      rfl

theorem parse_marshal (m : OptionsMap)
    (hdash : ∀ p ∈ m, startsWithDash p.1 = true)
    (hval : ∀ p ∈ m, ∀ s, p.2 = OptVal.str s → startsWithDash s = false)
    (hfalse : ∀ p ∈ m, p.2 ≠ OptVal.bool false)
    (hnodup : (m.map Prod.fst).Nodup) :
    parse_options (marshal_options m) = some m := by
  show (Option.map (·.map List.asString)
      (lexRun (List.asString (shlexJoinChars ((marshalTokens m).map String.data))).data
        .ws [])).map (parseGo · []) = some m
  rw [show (List.asString (shlexJoinChars ((marshalTokens m).map String.data))).data =
        shlexJoinChars ((marshalTokens m).map String.data) from rfl,
    lexRun_join, Option.map_some', Option.map_some', map_asString_data,
    parseGo_marshal m [] hdash hval hfalse hnodup (by simp), List.nil_append]

/-! ## Claim C1 -/

/-- C1, counterexample: the round-trip law fails as stated.  The map
`{"-a": "-b"}` has no `false` entries, its key is a flag token, and its
value is a string, yet `parse_options(marshal_options(m))` is
`{"-a": True, "-b": True}`, not `m`: a string value beginning with `-`
is re-read as a flag. -/
theorem c1_roundtrip_counterexample :
    parse_options (marshal_options [("-a", OptVal.str "-b")]) =
      some [("-a", OptVal.bool true), ("-b", OptVal.bool true)] ∧
    parse_options (marshal_options [("-a", OptVal.str "-b")]) ≠
      some [("-a", OptVal.str "-b")] := by
  constructor
  · decide
  · decide

/-- C1 (amended): `parse_options (marshal_options m) = m` for every
`OptionsMap` `m` whose keys are distinct flag tokens (they start with
`-`), whose entries are boolean `true` or strings, with no `false`
entries, provided additionally that no string value itself starts with
`-`. -/
theorem c1_options_roundtrip (m : OptionsMap)
    (hdash : ∀ p ∈ m, startsWithDash p.1 = true)
    (hval : ∀ p ∈ m, ∀ s, p.2 = OptVal.str s → startsWithDash s = false)
    (hfalse : ∀ p ∈ m, p.2 ≠ OptVal.bool false)
    (hnodup : (m.map Prod.fst).Nodup) :
    parse_options (marshal_options m) = some m :=
  parse_marshal m hdash hval hfalse hnodup

/-- C1, witness: the amended round-trip law at the options map of spec
§8, whose `--conf` value contains a space and therefore exercises the
quoting path. -/
theorem c1_options_roundtrip_witness :
    parse_options (marshal_options
      [("-Z", OptVal.bool true), ("--conf", OptVal.str "RealMemory=60000 CPUs=16"),
       ("--conf-server", OptVal.str "localhost:6817")]) =
    some [("-Z", OptVal.bool true), ("--conf", OptVal.str "RealMemory=60000 CPUs=16"),
       ("--conf-server", OptVal.str "localhost:6817")] :=
  c1_options_roundtrip
    [("-Z", OptVal.bool true), ("--conf", OptVal.str "RealMemory=60000 CPUs=16"),
     ("--conf-server", OptVal.str "localhost:6817")]
    (by decide)
    (by
      intro p hp s hs
      simp only [List.mem_cons, List.not_mem_nil, or_false] at hp
      rcases hp with rfl | rfl | rfl
      · exact absurd hs (by simp)
      · injection hs with h
        subst h
        decide
      · injection hs with h
        subst h
        decide)
    (by decide) (by decide)

/-! ## Claim C9 -/

/-- C9: marshaling a map whose only entry is a boolean `false` flag
produces the empty string, and parsing the empty string produces the
empty map. -/
theorem c9_false_omission :
    (∀ k : String, marshal_options [(k, OptVal.bool false)] = "") ∧
    parse_options "" = some [] := by
  constructor
  · intro k
    rfl
  · decide

/-! ## Claim C2 -/

/-- C2: edit scopes are atomic.  For `SlurmManager._edit_options` and
for the config-manager `edit` (modelled from the spec), if the body
raises — or the load step fails to parse — the file state after the
call equals the state before it; on normal exit the mutated document is
dumped. -/
theorem c2_edit_atomicity :
    (∀ (ε : Type) (f : OptionsMap → Except ε OptionsMap) (st : EnvState),
      ((_edit_options f st).2.isSome → (_edit_options f st).1 = st) ∧
      (∀ opts opts', _load_options st = some opts → f opts = .ok opts' →
        _edit_options f st = (some (marshal_options opts'), none))) ∧
    (∀ (Doc ε : Type) (ed : Editor Doc) (f : Doc → Except ε Doc) (file : Option String),
      ((configEdit ed f file).2.isSome → (configEdit ed f file).1 = file) ∧
      (∀ d d', (match file with | none => Except.ok ed.empty | some bs => ed.parse bs) = .ok d →
        f d = .ok d' → configEdit ed f file = (some (ed.dump d'), none))) := by
  constructor
  · intro ε f st
    constructor
    · intro h
      unfold _edit_options at *
      cases hl : _load_options st with
      | none => simp [hl]
      | some opts =>
          cases hf : f opts with
          | error e => simp [hl, hf]
          | ok opts' => simp [hl, hf] at h
    · intro opts opts' hl hf
      simp only [_edit_options, hl, hf]
      rfl
  · intro Doc ε ed f file
    constructor
    · intro h
      unfold configEdit at *
      cases hl : (match file with | none => Except.ok ed.empty | some bs => ed.parse bs) with
      | error e => simp [hl]
      | ok d =>
          cases hf : f d with
          | error e => simp [hl, hf]
          | ok d' => simp [hl, hf] at h
    · intro d d' hl hf
      simp only [configEdit, hl, hf]

/-- C2, witness: with the `<SERVICE>_OPTIONS` variable unset, a body
that raises leaves the state unset, and a body that adds `-v` ends with
the marshaled `-v` stored. -/
theorem c2_edit_atomicity_witness :
    (_edit_options (fun _ => (Except.error () : Except Unit OptionsMap)) (none : EnvState)).1 =
      none ∧
    _edit_options (fun o => (Except.ok (("-v", OptVal.bool true) :: o) : Except Unit OptionsMap))
      (none : EnvState) = (some "-v", none) := by
  constructor
  · exact (c2_edit_atomicity.1 Unit (fun _ => Except.error ()) none).1 (by decide)
  · have := (c2_edit_atomicity.1 Unit
      (fun o => (Except.ok (("-v", OptVal.bool true) :: o) : Except Unit OptionsMap)) none).2
      [] [("-v", OptVal.bool true)] (by decide) rfl
    rw [this]
    rfl

/-! ## Claim C3 -/

/-- C3: after every successful `set` or `generate` on the JWT RSA-key
manager or the symmetric `slurm.key` manager, the secret file's mode is
exactly `0o600` and its owner and group are the configured user and
group, regardless of the file's prior attributes (`st` is arbitrary, in
particular an existing file with any mode and ownership). -/
theorem c3_secret_permissions (u g : String) (cs : FileAttr String)
    (cb : FileAttr (List Nat)) (secret pem : String) (key : List Nat)
    (st : Option (FileAttr String)) (stb : Option (FileAttr (List Nat))) :
    ((jwtSet u g cs secret st).mode = 0o600 ∧ (jwtSet u g cs secret st).user = u ∧
      (jwtSet u g cs secret st).group = g) ∧
    ((jwtGenerate u g cs pem st).mode = 0o600 ∧ (jwtGenerate u g cs pem st).user = u ∧
      (jwtGenerate u g cs pem st).group = g) ∧
    (∀ f', slurmKeySet u g cb secret stb = some f' →
      f'.mode = 0o600 ∧ f'.user = u ∧ f'.group = g) ∧
    (∀ f', slurmKeyGenerate u g cb key stb = some f' →
      f'.mode = 0o600 ∧ f'.user = u ∧ f'.group = g) := by
  refine ⟨⟨rfl, rfl, rfl⟩, ⟨rfl, rfl, rfl⟩, ?_, ?_⟩
  · intro f' h
    unfold slurmKeySet at h
    cases hd : b64decode secret with
    | none => rw [hd] at h; cases h
    | some bs =>
        rw [hd] at h
        simp only [Option.map_some', Option.some.injEq] at h
        subst h
        exact ⟨rfl, rfl, rfl⟩
  · intro f' h
    unfold slurmKeyGenerate slurmKeySet at h
    cases hd : b64decode (b64encode key) with
    | none => rw [hd] at h; cases h
    | some bs =>
        rw [hd] at h
        simp only [Option.map_some', Option.some.injEq] at h
        subst h
        exact ⟨rfl, rfl, rfl⟩

/-- C3, witness: a concrete prior file with mode `0o777` owned by
`root:root`; after `set`/`generate` on both managers the mode is
`0o600` and the owner/group are `slurm:slurm`. -/
theorem c3_secret_permissions_witness :
    (jwtSet "slurm" "slurm" ⟨"", 420, "root", "root"⟩ "PEM"
        (some ⟨"old", 511, "root", "root"⟩)).mode = 0o600 ∧
    (∀ f', slurmKeySet "slurm" "slurm" ⟨[], 420, "root", "root"⟩ "TWFu"
        (some ⟨[1], 511, "root", "root"⟩) = some f' → f'.mode = 0o600 ∧ f'.user = "slurm") := by
  constructor
  · exact (c3_secret_permissions "slurm" "slurm" ⟨"", 420, "root", "root"⟩
      ⟨[], 420, "root", "root"⟩ "PEM" "PEM" [] (some ⟨"old", 511, "root", "root"⟩)
      (some ⟨[1], 511, "root", "root"⟩)).1.1
  · intro f' h
    have := (c3_secret_permissions "slurm" "slurm" ⟨"", 420, "root", "root"⟩
      ⟨[], 420, "root", "root"⟩ "TWFu" "PEM" [] (some ⟨"old", 511, "root", "root"⟩)
      (some ⟨[1], 511, "root", "root"⟩)).2.2.1 f' h
    exact ⟨this.1, this.2.1⟩

/-! ## Claim C8 -/

/-- C8, counterexample: `is_installed` does not always return `false`
when `version()` fails.  With the snap `installed` field present but
empty, `version()` fails with `IndexError`
(`version.split(maxsplit=1)[0]` on an empty string), which is not the
caught `SlurmOpsError`, so `is_installed` propagates the failure
instead of returning `false`. -/
theorem c8_is_installed_counterexample :
    snapVersion (some "") = Except.error PyErr.indexError ∧
    is_installed (snapVersion (some "")) = Except.error PyErr.indexError ∧
    is_installed (snapVersion (some "")) ≠ Except.ok false := by
  refine ⟨rfl, rfl, ?_⟩
  intro h
  cases h

/-- C8 (amended): `is_installed` returns `true` iff `version()`
succeeds, and returns `false` (rather than propagating) whenever
`version()` fails with the declared `SlurmOpsError`; a failure of any
other kind — concretely the `IndexError` raised by the snap backend's
`version.split(maxsplit=1)[0]` on a whitespace-only `installed` field —
propagates out of `is_installed` instead.  The apt backend's
`version()` only ever fails with `SlurmOpsError`, so there
`is_installed` never propagates. -/
theorem c8_is_installed (r : Except PyErr String) :
    (is_installed r = .ok true ↔ ∃ v, r = .ok v) ∧
    (∀ m, r = .error (.slurmOpsError m) → is_installed r = .ok false) ∧
    (∀ svc pkg, ∃ b, is_installed (aptVersion svc pkg) = .ok b) := by
  refine ⟨⟨?_, ?_⟩, ?_, ?_⟩
  · intro h
    cases r with
    | ok v => exact ⟨v, rfl⟩
    | error e =>
        cases e with
        | slurmOpsError m => cases h
        | indexError => cases h
  · rintro ⟨v, rfl⟩
    rfl
  · rintro m rfl
    rfl
  · intro svc pkg
    cases pkg with
    | none => exact ⟨false, rfl⟩
    | some v => exact ⟨true, rfl⟩

/-- C8, witness: a successful snap `version()` yields `true`, and an
apt `version()` failing with `SlurmOpsError` (missing package) yields
`false` without propagating. -/
theorem c8_is_installed_witness :
    is_installed (snapVersion (some "23.11.9 7131")) = .ok true ∧
    is_installed (aptVersion "slurmctld" none) = .ok false := by
  constructor
  · exact (c8_is_installed (snapVersion (some "23.11.9 7131"))).1.mpr ⟨"23.11.9", rfl⟩
  · exact (c8_is_installed (aptVersion "slurmctld" none)).2.1
      "unable to retrieve slurmctld version" rfl

/-! ## Lemmas: base64 decode inverts encode -/

theorem b64DecChar_b64Char_fin : ∀ i : Fin 64, b64DecChar (b64Char i.val) = some i.val := by
  decide

theorem b64DecChar_b64Char {n : Nat} (h : n < 64) : b64DecChar (b64Char n) = some n :=
  b64DecChar_b64Char_fin ⟨n, h⟩

theorem b64Char_ne_eq_fin : ∀ i : Fin 64, b64Char i.val ≠ '=' := by
  decide

theorem b64Char_ne_eq {n : Nat} (h : n < 64) : b64Char n ≠ '=' :=
  b64Char_ne_eq_fin ⟨n, h⟩

theorem b64_decode_encode :
    ∀ (bs : List Nat), (∀ b ∈ bs, b < 256) → b64DecodeChars (b64EncodeChars bs) = some bs
  | [], _ => rfl
  | [b1], h => by
      have hb1 : b1 < 256 := h b1 (by simp)
      have e1 : b1 / 4 < 64 := by omega
      have e2 : b1 % 4 * 16 < 64 := by omega
      show b64DecodeChars [b64Char (b1 / 4), b64Char (b1 % 4 * 16), '=', '='] = some [b1]
      rw [b64DecodeChars, if_pos ⟨rfl, rfl, rfl⟩, b64DecChar_b64Char e1, b64DecChar_b64Char e2]
      show some [b1 / 4 * 4 + b1 % 4 * 16 / 16] = some [b1]
      have : b1 / 4 * 4 + b1 % 4 * 16 / 16 = b1 := by omega
      rw [this]
  | [b1, b2], h => by
      have hb1 : b1 < 256 := h b1 (by simp)
      have hb2 : b2 < 256 := h b2 (by simp)
      have e1 : b1 / 4 < 64 := by omega
      have e2 : b1 % 4 * 16 + b2 / 16 < 64 := by omega
      have e3 : b2 % 16 * 4 < 64 := by omega
      show b64DecodeChars
          [b64Char (b1 / 4), b64Char (b1 % 4 * 16 + b2 / 16), b64Char (b2 % 16 * 4), '='] =
        some [b1, b2]
      rw [b64DecodeChars, if_neg (by rintro ⟨h3, -, -⟩; exact b64Char_ne_eq e3 h3),
        if_pos ⟨rfl, rfl⟩, b64DecChar_b64Char e1, b64DecChar_b64Char e2, b64DecChar_b64Char e3]
      show some [b1 / 4 * 4 + (b1 % 4 * 16 + b2 / 16) / 16,
        (b1 % 4 * 16 + b2 / 16) % 16 * 16 + b2 % 16 * 4 / 4] = some [b1, b2]
      have r1 : b1 / 4 * 4 + (b1 % 4 * 16 + b2 / 16) / 16 = b1 := by omega
      have r2 : (b1 % 4 * 16 + b2 / 16) % 16 * 16 + b2 % 16 * 4 / 4 = b2 := by omega
      rw [r1, r2]
  | b1 :: b2 :: b3 :: rest, h => by
      have hb1 : b1 < 256 := h b1 (by simp)
      have hb2 : b2 < 256 := h b2 (by simp)
      have hb3 : b3 < 256 := h b3 (by simp)
      have e1 : b1 / 4 < 64 := by omega
      have e2 : b1 % 4 * 16 + b2 / 16 < 64 := by omega
      have e3 : b2 % 16 * 4 + b3 / 64 < 64 := by omega
      have e4 : b3 % 64 < 64 := by omega
      have henc : b64EncodeChars (b1 :: b2 :: b3 :: rest) =
          b64Char (b1 / 4) :: b64Char (b1 % 4 * 16 + b2 / 16) ::
            b64Char (b2 % 16 * 4 + b3 / 64) :: b64Char (b3 % 64) :: b64EncodeChars rest := rfl
      rw [henc, b64DecodeChars,
        if_neg (by rintro ⟨h3, -, -⟩; exact b64Char_ne_eq e3 h3),
        if_neg (by rintro ⟨h4, -⟩; exact b64Char_ne_eq e4 h4),
        b64DecChar_b64Char e1, b64DecChar_b64Char e2, b64DecChar_b64Char e3,
        b64DecChar_b64Char e4, b64_decode_encode rest (fun b hb => h b (by simp [hb]))]
      show some ((b1 / 4 * 4 + (b1 % 4 * 16 + b2 / 16) / 16) ::
        ((b1 % 4 * 16 + b2 / 16) % 16 * 16 + (b2 % 16 * 4 + b3 / 64) / 4) ::
        ((b2 % 16 * 4 + b3 / 64) % 4 * 64 + b3 % 64) :: rest) = some (b1 :: b2 :: b3 :: rest)
      have r1 : b1 / 4 * 4 + (b1 % 4 * 16 + b2 / 16) / 16 = b1 := by omega
      have r2 : (b1 % 4 * 16 + b2 / 16) % 16 * 16 + (b2 % 16 * 4 + b3 / 64) / 4 = b2 := by omega
      have r3 : (b2 % 16 * 4 + b3 / 64) % 4 * 64 + b3 % 64 = b3 := by omega
      rw [r1, r2, r3]

/-! ## Claim C10 -/

/-- C10: for the symmetric `slurm.key` manager, setting any canonical
base64 string `b64encode bs` and reading it back returns exactly that
string: `set` stores the decoded bytes and `get` re-encodes them. -/
theorem c10_slurm_key_roundtrip (bs : List Nat) (h : ∀ b ∈ bs, b < 256)
    (u g : String) (c : FileAttr (List Nat)) (st : Option (FileAttr (List Nat))) :
    slurmKeyGet (slurmKeySet u g c (b64encode bs) st) = some (b64encode bs) := by
  have hdec : b64decode (b64encode bs) = some bs := by
    show b64DecodeChars (List.asString (b64EncodeChars bs)).data = some bs
    rw [show (List.asString (b64EncodeChars bs)).data = b64EncodeChars bs from rfl,
      b64_decode_encode bs h]
  unfold slurmKeySet
  rw [hdec, Option.map_some']
  cases st with
  | none => rfl
  | some f => rfl

/-- C10, witness: the round trip at the key bytes `[77, 97, 110]`
(base64 `TWFu`), over an existing file with different content. -/
theorem c10_slurm_key_roundtrip_witness :
    slurmKeyGet (slurmKeySet "slurm" "slurm" ⟨[], 420, "root", "root"⟩
      (b64encode [77, 97, 110]) (some ⟨[9, 9], 511, "root", "root"⟩)) =
    some (b64encode [77, 97, 110]) :=
  c10_slurm_key_roundtrip [77, 97, 110] (by decide) "slurm" "slurm"
    ⟨[], 420, "root", "root"⟩ (some ⟨[9, 9], 511, "root", "root"⟩)

/-! ## Lemmas: association-list directory model -/

theorem assocLookup_upsert {V : Type} :
    ∀ (l : List (String × V)) (k' : String) (v' : V) (k : String),
      assocLookup (assocUpsert l k' v') k = if k' = k then some v' else assocLookup l k
  | [], k', v', k => by
      simp [assocUpsert, assocLookup]
  | (n, w) :: rest, k', v', k => by
      by_cases hn : n = k'
      · subst hn
        by_cases hk : n = k <;> simp [assocUpsert, assocLookup, hk]
      · have hn' : k' ≠ n := fun e => hn e.symm
        by_cases hk : n = k
        · subst hk
          simp [assocUpsert, assocLookup, hn, hn']
        · simp [assocUpsert, assocLookup, hn, hk, assocLookup_upsert rest k' v' k]

theorem assocLookup_append {V : Type} :
    ∀ (l1 l2 : List (String × V)) (k : String),
      assocLookup (l1 ++ l2) k = (assocLookup l1 k).or (assocLookup l2 k)
  | [], l2, k => by simp [assocLookup]
  | (n, w) :: rest, l2, k => by
      rw [List.cons_append, assocLookup, assocLookup]
      by_cases hk : n = k
      · rw [if_pos hk, if_pos hk]
        rfl
      · rw [if_neg hk, if_neg hk, assocLookup_append rest l2 k]

theorem assocLookup_eq_none {V : Type} :
    ∀ (l : List (String × V)) (k : String), k ∉ l.map Prod.fst → assocLookup l k = none
  | [], _, _ => rfl
  | (n, w) :: rest, k, h => by
      simp only [List.map_cons, List.mem_cons] at h
      push_neg at h
      rw [assocLookup, if_neg (by exact fun e => h.1 e.symm),
        assocLookup_eq_none rest k h.2]

theorem mem_keys_of_lookup {V : Type} :
    ∀ (l : List (String × V)) (k : String) (v : V),
      assocLookup l k = some v → k ∈ l.map Prod.fst
  | [], k, v, h => by cases h
  | (n, w) :: rest, k, v, h => by
      rw [assocLookup] at h
      by_cases hk : n = k
      · simp [hk]
      · rw [if_neg hk] at h
        simp [mem_keys_of_lookup rest k v h]

theorem lookup_isSome_of_mem_keys {V : Type} :
    ∀ (l : List (String × V)) (k : String), k ∈ l.map Prod.fst →
      ∃ v, assocLookup l k = some v
  | [], k, h => by simp at h
  | (n, w) :: rest, k, h => by
      by_cases hk : n = k
      · exact ⟨w, by rw [assocLookup, if_pos hk]⟩
      · simp only [List.map_cons, List.mem_cons] at h
        rcases h with h | h
        · exact absurd h.symm hk
        · obtain ⟨v, hv⟩ := lookup_isSome_of_mem_keys rest k h
          exact ⟨v, by rw [assocLookup, if_neg hk, hv]⟩

theorem mem_keys_upsert {V : Type} :
    ∀ (l : List (String × V)) (k : String) (v : V) (n : String),
      n ∈ (assocUpsert l k v).map Prod.fst ↔ n ∈ l.map Prod.fst ∨ n = k
  | [], k, v, n => by simp [assocUpsert]
  | (m, w) :: rest, k, v, n => by
      by_cases hm : m = k
      · subst hm
        rw [assocUpsert, if_pos rfl]
        simp only [List.map_cons, List.mem_cons]
        constructor
        · intro h; exact .inl h
        · rintro (h | rfl)
          · exact h
          · exact .inl rfl
      · rw [assocUpsert, if_neg hm]
        simp only [List.map_cons, List.mem_cons, mem_keys_upsert rest k v n]
        tauto

theorem nodup_keys_upsert {V : Type} :
    ∀ (l : List (String × V)) (k : String) (v : V),
      (l.map Prod.fst).Nodup → ((assocUpsert l k v).map Prod.fst).Nodup
  | [], k, v, _ => by simp [assocUpsert]
  | (m, w) :: rest, k, v, h => by
      simp only [List.map_cons, List.nodup_cons] at h
      by_cases hm : m = k
      · rw [assocUpsert, if_pos hm]
        simp only [List.map_cons, List.nodup_cons]
        exact h
      · rw [assocUpsert, if_neg hm]
        simp only [List.map_cons, List.nodup_cons]
        refine ⟨?_, nodup_keys_upsert rest k v h.2⟩
        intro hmem
        rw [mem_keys_upsert] at hmem
        rcases hmem with hmem | hmem
        · exact h.1 hmem
        · exact hm hmem

/-! ## Lemmas: glob matching a `<prefix>*` pattern -/

theorem globGo_starOnly (s : List Char) : ∀ (f : Nat), s.length + 2 ≤ f →
    globGo f ['*'] s = true := by
  induction s with
  | nil =>
      intro f h
      obtain ⟨f', rfl⟩ : ∃ f', f = f' + 2 := ⟨f - 2, by omega⟩
      rfl
  | cons c cs ih =>
      intro f h
      simp only [List.length_cons] at h
      obtain ⟨f', rfl⟩ : ∃ f', f = f' + 1 := ⟨f - 1, by omega⟩
      show (globGo f' [] (c :: cs) || globGo f' ['*'] cs) = true
      rw [ih f' (by omega)]
      simp

theorem globGo_prefixStar :
    ∀ (xs : List Char), '*' ∉ xs → ∀ (s : List Char) (f : Nat),
      xs.length + s.length + 2 ≤ f → globGo f (xs ++ ['*']) s = xs.isPrefixOf s := by
  intro xs
  induction xs with
  | nil =>
      intro _ s f h
      rw [List.nil_append, globGo_starOnly s f (by simpa using h)]
      cases s <;> rfl
  | cons x xs ih =>
      intro hstar s f h
      simp only [List.mem_cons, not_or] at hstar
      have hx : x ≠ '*' := fun e => hstar.1 e.symm
      simp only [List.length_cons] at h
      obtain ⟨f', rfl⟩ : ∃ f', f = f' + 1 := ⟨f - 1, by omega⟩
      cases s with
      | nil =>
          rw [List.cons_append, globGo, if_neg hx]
          rfl
      | cons c cs =>
          rw [List.cons_append, globGo, if_neg hx]
          show (decide (x = c) && globGo f' (xs ++ ['*']) cs) = List.isPrefixOf (x :: xs) (c :: cs)
          rw [ih hstar.2 cs f' (by simp only [List.length_cons] at h ⊢; omega)]
          by_cases hxc : x = c
          · subst hxc
            simp [List.isPrefixOf]
          · simp [List.isPrefixOf, hxc]

theorem globMatch_prefixStar (xs s : List Char) (hstar : '*' ∉ xs) :
    globMatch (xs ++ ['*']) s = xs.isPrefixOf s := by
  unfold globMatch
  exact globGo_prefixStar xs hstar s _ (by simp [List.length_append]; omega)

/-! ## Lemmas: file-name prefixes and the `.snapshot` suffix -/

theorem strStarts_self_append (q r : String) : strStarts q (q ++ r) = true := by
  unfold strStarts
  rw [show (q ++ r).data = q.data ++ r.data from rfl]
  exact List.isPrefixOf_iff_prefix.mpr (List.prefix_append q.data r.data)

theorem strStarts_mono (q n t : String) (h : strStarts q n = true) :
    strStarts q (n ++ t) = true := by
  unfold strStarts at h ⊢
  rw [show (n ++ t).data = n.data ++ t.data from rfl]
  exact List.isPrefixOf_iff_prefix.mpr
    ((List.isPrefixOf_iff_prefix.mp h).trans (List.prefix_append n.data t.data))

theorem ne_of_strStarts_dot (p n : String) (h : strStarts (p ++ ".") n = true) : n ≠ p := by
  intro e
  subst e
  have := List.IsPrefix.length_le (List.isPrefixOf_iff_prefix.mp h)
  rw [show (n ++ ".").data = n.data ++ ['.'] from rfl] at this
  simp at this

theorem strSuffix_append (s : String) : strSuffix ".snapshot" (s ++ ".snapshot") = true := by
  unfold strSuffix
  rw [show (s ++ ".snapshot").data = s.data ++ ".snapshot".data from rfl]
  exact List.isSuffixOf_iff_suffix.mpr (List.suffix_append s.data ".snapshot".data)

theorem stripSnapshot_append (n : String) : stripSnapshot (n ++ ".snapshot") = n := by
  unfold stripSnapshot
  rw [show (n ++ ".snapshot").data = n.data ++ ".snapshot".data from rfl]
  rw [List.length_append, show (".snapshot".data).length = 9 from rfl,
    show (".snapshot" : String).length = 9 from rfl,
    show n.data.length + 9 - 9 = n.data.length from by omega, List.take_left]
  rfl

theorem append_snapshot_inj {a b : String} (h : a ++ ".snapshot" = b ++ ".snapshot") : a = b := by
  have := congrArg stripSnapshot h
  rwa [stripSnapshot_append, stripSnapshot_append] at this

theorem ne_of_snap_suffix {a b : String} (ha : strSuffix ".snapshot" a = false)
    (hb : strSuffix ".snapshot" b = true) : a ≠ b := by
  intro e
  rw [e, hb] at ha
  cases ha

/-! ## Lemmas: include and snapshot discovery -/

theorem mem_includesNames {γ : Type} (p : String) (hstar : '*' ∉ p.data)
    (fs : FileSys γ) (n : String) :
    n ∈ includesNames p fs ↔
      n ∈ fs.map Prod.fst ∧ strStarts (p ++ ".") n = true ∧
        strSuffix ".snapshot" n = false := by
  unfold includesNames
  rw [List.mem_filter]
  have hpat : p.data ++ ['.', '*'] = (p.data ++ ['.']) ++ ['*'] := by simp
  rw [hpat, globMatch_prefixStar (p.data ++ ['.']) n.data
    (by simp only [List.mem_append, List.mem_singleton, not_or]; exact ⟨hstar, by decide⟩)]
  have hq : strStarts (p ++ ".") n = (p.data ++ ['.']).isPrefixOf n.data := rfl
  rw [← hq]
  constructor
  · rintro ⟨hmem, hcond⟩
    simp only [Bool.and_eq_true, Bool.not_eq_true'] at hcond
    exact ⟨hmem, hcond.1, hcond.2⟩
  · rintro ⟨hmem, h1, h2⟩
    refine ⟨hmem, ?_⟩
    simp only [Bool.and_eq_true, Bool.not_eq_true']
    exact ⟨h1, h2⟩

theorem mem_snapshotNames {γ : Type} (p : String) (hstar : '*' ∉ p.data)
    (fs : FileSys γ) (n : String) :
    n ∈ snapshotNames p fs ↔
      n ∈ fs.map Prod.fst ∧ strStarts (p ++ ".") n = true ∧
        strSuffix ".snapshot" n = true := by
  unfold snapshotNames
  rw [List.mem_filter]
  have hpat : p.data ++ ['.', '*'] = (p.data ++ ['.']) ++ ['*'] := by simp
  rw [hpat, globMatch_prefixStar (p.data ++ ['.']) n.data
    (by simp only [List.mem_append, List.mem_singleton, not_or]; exact ⟨hstar, by decide⟩)]
  have hq : strStarts (p ++ ".") n = (p.data ++ ['.']).isPrefixOf n.data := rfl
  rw [← hq]
  constructor
  · rintro ⟨hmem, hcond⟩
    simp only [Bool.and_eq_true] at hcond
    exact ⟨hmem, hcond.1, hcond.2⟩
  · rintro ⟨hmem, h1, h2⟩
    refine ⟨hmem, ?_⟩
    simp only [Bool.and_eq_true]
    exact ⟨h1, h2⟩

/-! ## Lemmas: copy loops and write sequences -/

theorem copyFiles_cons {γ : Type} (j : String × String) (jobs : List (String × String))
    (fs : FileSys γ) :
    copyFiles (j :: jobs) fs =
      copyFiles jobs
        (match assocLookup fs j.1 with
          | none => fs
          | some v => assocUpsert fs j.2 v) := rfl

theorem copyFiles_lookup_stable {γ : Type} :
    ∀ (jobs : List (String × String)) (fs : FileSys γ) (k : String),
      (∀ j ∈ jobs, k ≠ j.2) → assocLookup (copyFiles jobs fs) k = assocLookup fs k
  | [], _, _, _ => rfl
  | j :: jobs, fs, k, h => by
      rw [copyFiles_cons]
      cases hlv : assocLookup fs j.1 with
      | none =>
          exact copyFiles_lookup_stable jobs fs k (fun j' hj' => h j' (by simp [hj']))
      | some v =>
          rw [copyFiles_lookup_stable jobs _ k (fun j' hj' => h j' (by simp [hj'])),
            assocLookup_upsert, if_neg (fun e => h j (by simp) e.symm)]

theorem copyFiles_mem_keys {γ : Type} :
    ∀ (jobs : List (String × String)) (fs : FileSys γ) (n : String),
      n ∈ fs.map Prod.fst → n ∈ (copyFiles jobs fs).map Prod.fst
  | [], _, _, h => h
  | j :: jobs, fs, n, h => by
      rw [copyFiles_cons]
      cases hlv : assocLookup fs j.1 with
      | none => exact copyFiles_mem_keys jobs fs n h
      | some v =>
          exact copyFiles_mem_keys jobs _ n ((mem_keys_upsert fs j.2 v n).mpr (.inl h))

theorem copyFiles_keys_subset {γ : Type} :
    ∀ (jobs : List (String × String)) (fs : FileSys γ) (n : String),
      n ∈ (copyFiles jobs fs).map Prod.fst →
      n ∈ fs.map Prod.fst ∨ n ∈ jobs.map Prod.snd
  | [], _, _, h => .inl h
  | j :: jobs, fs, n, h => by
      rw [copyFiles_cons] at h
      cases hlv : assocLookup fs j.1 with
      | none =>
          rw [hlv] at h
          rcases copyFiles_keys_subset jobs fs n h with h' | h'
          · exact .inl h'
          · exact .inr (by simp [h'])
      | some v =>
          rw [hlv] at h
          rcases copyFiles_keys_subset jobs _ n h with h' | h'
          · rcases (mem_keys_upsert fs j.2 v n).mp h' with h'' | h''
            · exact .inl h''
            · exact .inr (by simp [h''])
          · exact .inr (by simp [h'])

theorem copyFiles_nodup {γ : Type} :
    ∀ (jobs : List (String × String)) (fs : FileSys γ),
      (fs.map Prod.fst).Nodup → ((copyFiles jobs fs).map Prod.fst).Nodup
  | [], _, h => h
  | j :: jobs, fs, h => by
      rw [copyFiles_cons]
      cases hlv : assocLookup fs j.1 with
      | none => exact copyFiles_nodup jobs fs h
      | some v => exact copyFiles_nodup jobs _ (nodup_keys_upsert fs j.2 v h)

theorem copyFiles_lookup_dest {γ : Type} :
    ∀ (jobs : List (String × String)) (fs : FileSys γ) (s d : String) (v : γ),
      (s, d) ∈ jobs → (jobs.map Prod.snd).Nodup →
      (∀ j ∈ jobs, ∀ j' ∈ jobs, j.1 ≠ j'.2) →
      assocLookup fs s = some v →
      assocLookup (copyFiles jobs fs) d = some v
  | [], _, _, _, _, hmem, _, _, _ => by cases hmem
  | j :: jobs, fs, s, d, v, hmem, hnodup, hSD, hs => by
      rw [copyFiles_cons]
      simp only [List.map_cons, List.nodup_cons] at hnodup
      rcases List.mem_cons.mp hmem with hj | hj
      · subst hj
        rw [hs]
        rw [copyFiles_lookup_stable jobs _ d
          (fun j' hj' e => hnodup.1 (by
            show d ∈ List.map Prod.snd jobs
            rw [e]
            exact List.mem_map_of_mem Prod.snd hj')),
          assocLookup_upsert, if_pos rfl]
      · cases hlv : assocLookup fs j.1 with
        | none =>
            exact copyFiles_lookup_dest jobs fs s d v hj hnodup.2
              (fun a ha a' ha' => hSD a (by simp [ha]) a' (by simp [ha'])) hs
        | some w =>
            refine copyFiles_lookup_dest jobs _ s d v hj hnodup.2
              (fun a ha a' ha' => hSD a (by simp [ha]) a' (by simp [ha'])) ?_
            rw [assocLookup_upsert, if_neg (fun e => hSD (s, d) hmem j (by simp) e.symm)]
            exact hs

theorem applyWrites_cons {γ : Type} (w : String × γ) (ws : List (String × γ))
    (fs : FileSys γ) :
    applyWrites (w :: ws) fs = applyWrites ws (assocUpsert fs w.1 w.2) := rfl

theorem applyWrites_lookup_stable {γ : Type} :
    ∀ (ws : List (String × γ)) (fs : FileSys γ) (k : String),
      (∀ w ∈ ws, k ≠ w.1) → assocLookup (applyWrites ws fs) k = assocLookup fs k
  | [], _, _, _ => rfl
  | w :: ws, fs, k, h => by
      rw [applyWrites_cons,
        applyWrites_lookup_stable ws _ k (fun w' hw' => h w' (by simp [hw'])),
        assocLookup_upsert, if_neg (fun e => h w (by simp) e.symm)]

theorem applyWrites_mem_keys {γ : Type} :
    ∀ (ws : List (String × γ)) (fs : FileSys γ) (n : String),
      n ∈ fs.map Prod.fst → n ∈ (applyWrites ws fs).map Prod.fst
  | [], _, _, h => h
  | w :: ws, fs, n, h => by
      rw [applyWrites_cons]
      exact applyWrites_mem_keys ws _ n ((mem_keys_upsert fs w.1 w.2 n).mpr (.inl h))

theorem applyWrites_keys_subset {γ : Type} :
    ∀ (ws : List (String × γ)) (fs : FileSys γ) (n : String),
      n ∈ (applyWrites ws fs).map Prod.fst →
      n ∈ fs.map Prod.fst ∨ n ∈ ws.map Prod.fst
  | [], _, _, h => .inl h
  | w :: ws, fs, n, h => by
      rw [applyWrites_cons] at h
      rcases applyWrites_keys_subset ws _ n h with h' | h'
      · rcases (mem_keys_upsert fs w.1 w.2 n).mp h' with h'' | h''
        · exact .inl h''
        · exact .inr (by simp [h''])
      · exact .inr (by simp [h'])

theorem applyWrites_nodup {γ : Type} :
    ∀ (ws : List (String × γ)) (fs : FileSys γ),
      (fs.map Prod.fst).Nodup → ((applyWrites ws fs).map Prod.fst).Nodup
  | [], _, h => h
  | w :: ws, fs, h => by
      rw [applyWrites_cons]
      exact applyWrites_nodup ws _ (nodup_keys_upsert fs w.1 w.2 h)

/-! ## Claim C4 -/

/-- C4: for every primary `p` (a plain file name, no `*` wildcard in
it), the includes mapping never contains a sibling ending in
`.snapshot`, and always contains every existing sibling whose name
extends `p ++ "."` and does not end in `.snapshot`. -/
theorem c4_include_exclusion {γ : Type} (p n : String) (fs : FileSys γ)
    (hstar : '*' ∉ p.data) :
    (strSuffix ".snapshot" n = true → n ∉ includesNames p fs) ∧
    (n ∈ fs.map Prod.fst → strStarts (p ++ ".") n = true →
      strSuffix ".snapshot" n = false → n ∈ includesNames p fs) := by
  constructor
  · intro hsnap hmem
    rw [mem_includesNames p hstar] at hmem
    rw [hmem.2.2] at hsnap
    cases hsnap
  · intro h1 h2 h3
    exact (mem_includesNames p hstar fs n).mpr ⟨h1, h2, h3⟩

/-- C4, witness: in a directory holding `slurm.conf`,
`slurm.conf.snapshot` and `slurm.conf.overrides`, the snapshot is
excluded from the includes of `slurm.conf` and the override fragment is
included. -/
theorem c4_include_exclusion_witness :
    "slurm.conf.snapshot" ∉ includesNames "slurm.conf"
      [("slurm.conf", "a"), ("slurm.conf.snapshot", "b"), ("slurm.conf.overrides", "c")] ∧
    "slurm.conf.overrides" ∈ includesNames "slurm.conf"
      [("slurm.conf", "a"), ("slurm.conf.snapshot", "b"), ("slurm.conf.overrides", "c")] := by
  constructor
  · exact (c4_include_exclusion "slurm.conf" "slurm.conf.snapshot"
      [("slurm.conf", "a"), ("slurm.conf.snapshot", "b"), ("slurm.conf.overrides", "c")]
      (by decide)).1 (by decide)
  · exact (c4_include_exclusion "slurm.conf" "slurm.conf.overrides"
      [("slurm.conf", "a"), ("slurm.conf.snapshot", "b"), ("slurm.conf.overrides", "c")]
      (by decide)).2 (by decide) (by decide) (by decide)

/-! ## Claim C5 -/

/-- C5: indexing the includes mapping with a name `k` that has no file
on disk creates no file and returns a handle whose path is the would-be
absolute path `dir ++ "/" ++ k`; the file exists only after a
subsequent `edit` (or `dump`) on that handle, here shown for an `edit`
whose body succeeds: afterwards the file holds the dump of the mutated
empty document. -/
theorem c5_lazy_include {Doc ε : Type} (dir k : String) (fs : FileSys String)
    (ed : Editor Doc) (f : Doc → Except ε Doc) (d' : Doc)
    (habsent : assocLookup fs k = none) (hf : f ed.empty = .ok d') :
    (includesGet dir fs k).1 = fs ∧
    ((includesGet dir fs k).2).path = dir ++ "/" ++ k ∧
    assocLookup (handleEdit ed (includesGet dir fs k).2 f fs).1 k = some (ed.dump d') := by
  refine ⟨rfl, rfl, ?_⟩
  have hce : configEdit ed f (assocLookup fs k) = (some (ed.dump d'), none) := by
    rw [habsent]
    simp only [configEdit, hf]
  have hhe : handleEdit ed (includesGet dir fs k).2 f fs = (assocUpsert fs k (ed.dump d'), none) := by
    unfold handleEdit
    rw [show ((includesGet dir fs k).2).name = k from rfl, hce]
  rw [hhe, assocLookup_upsert, if_pos rfl]

/-- C5, witness: a plain-text editor over a directory that only holds
`slurmdbd.conf`; looking up the include `slurmdbd.conf.overrides`
leaves the directory unchanged, points at
`/etc/slurm/slurmdbd.conf.overrides`, and an `edit` writing `x` creates
the file. -/
theorem c5_lazy_include_witness :
    (includesGet "/etc/slurm" [("slurmdbd.conf", "cfg")] "slurmdbd.conf.overrides").1 =
      [("slurmdbd.conf", "cfg")] ∧
    ((includesGet "/etc/slurm" [("slurmdbd.conf", "cfg")] "slurmdbd.conf.overrides").2).path =
      "/etc/slurm/slurmdbd.conf.overrides" ∧
    assocLookup (handleEdit ⟨fun s => Except.ok s, fun s => s, ""⟩
        (includesGet "/etc/slurm" [("slurmdbd.conf", "cfg")] "slurmdbd.conf.overrides").2
        (fun s => (Except.ok (s ++ "x") : Except Unit String))
        [("slurmdbd.conf", "cfg")]).1 "slurmdbd.conf.overrides" = some "x" := by
  have h := @c5_lazy_include String Unit "/etc/slurm" "slurmdbd.conf.overrides"
    [("slurmdbd.conf", "cfg")] ⟨fun s => Except.ok s, fun s => s, ""⟩
    (fun s => Except.ok (s ++ "x")) "x" (by decide) rfl
  exact ⟨h.1, by rw [h.2.1]; rfl, h.2.2⟩

/-! ## Lemmas: dict-update semantics of merge -/

theorem docUpdate_lookup {V : Type} :
    ∀ (u d : List (String × V)) (k : String),
      assocLookup (docUpdate d u) k = (assocLookup u.reverse k).or (assocLookup d k)
  | [], d, k => by
      show assocLookup d k = (assocLookup ([] : List (String × V)) k).or (assocLookup d k)
      rfl
  | (k', v') :: rest, d, k => by
      show assocLookup (docUpdate (assocUpsert d k' v') rest) k = _
      rw [docUpdate_lookup rest _ k, assocLookup_upsert, List.reverse_cons,
        assocLookup_append, Option.or_assoc]
      congr 1
      by_cases hk : k' = k
      · rw [if_pos hk, assocLookup, if_pos hk]
        rfl
      · rw [if_neg hk, assocLookup, if_neg hk]
        rfl

theorem assocLookup_reverse_nodup {V : Type} :
    ∀ (l : List (String × V)), (l.map Prod.fst).Nodup →
      ∀ (k : String), assocLookup l.reverse k = assocLookup l k
  | [], _, k => rfl
  | (n, w) :: rest, h, k => by
      simp only [List.map_cons, List.nodup_cons] at h
      rw [List.reverse_cons, assocLookup_append, assocLookup_reverse_nodup rest h.2 k]
      by_cases hk : n = k
      · subst hk
        rw [assocLookup_eq_none rest n h.1]
        show Option.none.or (if n = n then some w else none) =
          if n = n then some w else assocLookup rest n
        rw [if_pos rfl, if_pos rfl]
        rfl
      · show (assocLookup rest k).or (if n = k then some w else none) =
          if n = k then some w else assocLookup rest k
        rw [if_neg hk, if_neg hk]
        cases assocLookup rest k <;> rfl

theorem lookup_none_of_not_some {V : Type} (l : List (String × V)) (k : String)
    (h : assocLookup l k = none) : k ∉ l.map Prod.fst := by
  intro hmem
  obtain ⟨v, hv⟩ := lookup_isSome_of_mem_keys l k hmem
  rw [hv] at h
  cases h

/-! ## Claim C6 -/

/-- C6: merge is additive.  With a single include `i`: if the primary
document has field `A = a` and the include has field `B = b` and does
not set `A`, then after `merge` the primary document has both `A = a`
and `B = b`.  With two includes that both set field `C`, the primary
ends with the later-discovered include's value. -/
theorem c6_merge_additivity {V : Type} :
    (∀ (p i A B : String) (fs : FileSys (List (String × V))) (d u : List (String × V))
        (a b : V),
      assocLookup fs p = some d → includesNames p fs = [i] → assocLookup fs i = some u →
      assocLookup d A = some a → assocLookup u A = none →
      assocLookup u B = some b → (u.map Prod.fst).Nodup →
      ∃ d', assocLookup (mergeOp p fs) p = some d' ∧
        assocLookup d' A = some a ∧ assocLookup d' B = some b) ∧
    (∀ (p i1 i2 C : String) (fs : FileSys (List (String × V)))
        (u1 u2 : List (String × V)) (c2 : V),
      includesNames p fs = [i1, i2] → assocLookup fs i1 = some u1 →
      assocLookup fs i2 = some u2 →
      assocLookup u2 C = some c2 → (u2.map Prod.fst).Nodup →
      ∃ d', assocLookup (mergeOp p fs) p = some d' ∧ assocLookup d' C = some c2) := by
  constructor
  · intro p i A B fs d u a b hp hinc hi hA huA hB hu
    refine ⟨docUpdate d u, ?_, ?_, ?_⟩
    · unfold mergeOp
      rw [assocLookup_upsert, if_pos rfl, hinc, hp]
      simp only [List.filterMap_cons, List.filterMap_nil, hi, Option.getD_some,
        List.foldl_cons, List.foldl_nil]
    · rw [docUpdate_lookup, assocLookup_eq_none u.reverse A (by
        rw [List.map_reverse]
        intro hmem
        exact lookup_none_of_not_some u A huA (List.mem_reverse.mp hmem)), hA]
      rfl
    · rw [docUpdate_lookup, assocLookup_reverse_nodup u hu B, hB]
      rfl
  · intro p i1 i2 C fs u1 u2 c2 hinc h1 h2 hC hu
    refine ⟨docUpdate (docUpdate ((assocLookup fs p).getD []) u1) u2, ?_, ?_⟩
    · unfold mergeOp
      rw [assocLookup_upsert, if_pos rfl, hinc]
      simp only [List.filterMap_cons, List.filterMap_nil, h1, h2,
        List.foldl_cons, List.foldl_nil]
    · rw [docUpdate_lookup, assocLookup_reverse_nodup u2 hu C, hC]
      rfl

/-- C6, witness: merging `slurmdbd.conf` (holding `clustername=x`) with
the include `slurmdbd.conf.overrides` (holding `loglevel=dbg`) yields a
primary holding both; with two includes `.a` and `.b` both setting `c`,
the later-discovered `.b` value wins. -/
theorem c6_merge_additivity_witness :
    (∃ d', assocLookup (mergeOp "slurmdbd.conf"
        [("slurmdbd.conf", [("clustername", "x")]),
         ("slurmdbd.conf.overrides", [("loglevel", "dbg")])]) "slurmdbd.conf" = some d' ∧
      assocLookup d' "clustername" = some "x" ∧ assocLookup d' "loglevel" = some "dbg") ∧
    (∃ d', assocLookup (mergeOp "slurmdbd.conf"
        [("slurmdbd.conf", ([] : List (String × String))),
         ("slurmdbd.conf.a", [("c", "1")]), ("slurmdbd.conf.b", [("c", "2")])])
        "slurmdbd.conf" = some d' ∧ assocLookup d' "c" = some "2") := by
  constructor
  · exact (@c6_merge_additivity String).1 "slurmdbd.conf" "slurmdbd.conf.overrides"
      "clustername" "loglevel"
      [("slurmdbd.conf", [("clustername", "x")]),
       ("slurmdbd.conf.overrides", [("loglevel", "dbg")])]
      [("clustername", "x")] [("loglevel", "dbg")] "x" "dbg"
      (by decide) (by decide) (by decide) (by decide) (by decide) (by decide) (by decide)
  · exact (@c6_merge_additivity String).2 "slurmdbd.conf" "slurmdbd.conf.a"
      "slurmdbd.conf.b" "c"
      [("slurmdbd.conf", ([] : List (String × String))),
       ("slurmdbd.conf.a", [("c", "1")]), ("slurmdbd.conf.b", [("c", "2")])]
      [("c", "1")] [("c", "2")] "2"
      (by decide) (by decide) (by decide) (by decide) (by decide)

/-! ## Claim C7 -/

/-- C7: snapshot/restore round trip.  For a primary `p` that exists on
disk in a directory with unique names and no pre-existing snapshots,
after `save`, then an arbitrary sequence of writes to non-snapshot
files (the primary and any includes, creations included), then
`restore`, the primary and every original include hold exactly their
pre-mutation content. -/
theorem c7_snapshot_restore {γ : Type} (p : String) (fs : FileSys γ)
    (ws : List (String × γ)) (dp : γ)
    (hstar : '*' ∉ p.data)
    (hpsnap : strSuffix ".snapshot" p = false)
    (hnodup : (fs.map Prod.fst).Nodup)
    (hp : assocLookup fs p = some dp)
    (hnosnap : ∀ n ∈ fs.map Prod.fst, strSuffix ".snapshot" n = false)
    (hws : ∀ w ∈ ws, strSuffix ".snapshot" w.1 = false) :
    ∀ n ∈ p :: includesNames p fs,
      assocLookup (restoreOp p (applyWrites ws (saveOp p fs))) n = assocLookup fs n := by
  set N := p :: includesNames p fs with hN
  have hstartsN : ∀ n ∈ includesNames p fs, strStarts (p ++ ".") n = true := fun n hn =>
    ((mem_includesNames p hstar fs n).mp hn).2.1
  have hA1 : ∀ n ∈ N, strSuffix ".snapshot" n = false := by
    intro n hn
    rcases List.mem_cons.mp hn with rfl | hn'
    · exact hpsnap
    · exact ((mem_includesNames p hstar fs n).mp hn').2.2
  have hA4 : ∀ n ∈ N, n ∈ fs.map Prod.fst := by
    intro n hn
    rcases List.mem_cons.mp hn with rfl | hn'
    · exact mem_keys_of_lookup fs n dp hp
    · exact ((mem_includesNames p hstar fs n).mp hn').1
  have hA2 : ∀ n ∈ N, ∃ v, assocLookup fs n = some v := fun n hn =>
    lookup_isSome_of_mem_keys fs n (hA4 n hn)
  have hA3 : N.Nodup := by
    rw [hN]
    refine List.nodup_cons.mpr ⟨?_, ?_⟩
    · intro hmem
      exact ne_of_strStarts_dot p p (hstartsN p hmem) rfl
    · exact List.Nodup.filter _ hnodup
  set J1 := N.map (fun n => (n, n ++ ".snapshot")) with hJ1
  have hsave : saveOp p fs = copyFiles J1 fs := rfl
  have hJ1snd : J1.map Prod.snd = N.map (fun n => n ++ ".snapshot") := by
    rw [hJ1, List.map_map]
    rfl
  have hB1 : (J1.map Prod.snd).Nodup := by
    rw [hJ1snd]
    exact List.Nodup.map_on (fun x _ y _ e => append_snapshot_inj e) hA3
  have hB2 : ∀ j ∈ J1, ∀ j' ∈ J1, j.1 ≠ j'.2 := by
    intro j hj j' hj'
    rw [hJ1] at hj hj'
    obtain ⟨n, hn, rfl⟩ := List.mem_map.mp hj
    obtain ⟨n', _, rfl⟩ := List.mem_map.mp hj'
    exact ne_of_snap_suffix (hA1 n hn) (strSuffix_append n')
  have hB3 : ∀ n ∈ N, ∀ v, assocLookup fs n = some v →
      assocLookup (saveOp p fs) (n ++ ".snapshot") = some v := by
    intro n hn v hv
    rw [hsave]
    exact copyFiles_lookup_dest J1 fs n (n ++ ".snapshot") v
      (by rw [hJ1]; exact List.mem_map.mpr ⟨n, hn, rfl⟩) hB1 hB2 hv
  have hB5 : ((saveOp p fs).map Prod.fst).Nodup := by
    rw [hsave]
    exact copyFiles_nodup J1 fs hnodup
  set fs2 := applyWrites ws (saveOp p fs) with hfs2
  have hC1 : ∀ k, strSuffix ".snapshot" k = true →
      assocLookup fs2 k = assocLookup (saveOp p fs) k := by
    intro k hk
    exact applyWrites_lookup_stable ws _ k
      (fun w hw => (ne_of_snap_suffix (hws w hw) hk).symm)
  have hC2 : (fs2.map Prod.fst).Nodup := applyWrites_nodup ws _ hB5
  have hC5 : ∀ n ∈ N, ∀ v, assocLookup fs n = some v →
      assocLookup fs2 (n ++ ".snapshot") = some v := by
    intro n hn v hv
    rw [hC1 _ (strSuffix_append n)]
    exact hB3 n hn v hv
  have hC4 : ∀ n ∈ N, (n ++ ".snapshot") ∈ fs2.map Prod.fst := by
    intro n hn
    obtain ⟨v, hv⟩ := hA2 n hn
    exact mem_keys_of_lookup fs2 _ v (hC5 n hn v hv)
  have hC3 : ∀ m ∈ fs2.map Prod.fst, strSuffix ".snapshot" m = true →
      ∃ n ∈ N, m = n ++ ".snapshot" := by
    intro m hm hsufm
    rcases applyWrites_keys_subset ws _ m hm with hm1 | hm1
    · rw [hsave] at hm1
      rcases copyFiles_keys_subset J1 fs m hm1 with hm2 | hm2
      · rw [hnosnap m hm2] at hsufm
        cases hsufm
      · rw [hJ1snd] at hm2
        obtain ⟨n, hn, rfl⟩ := List.mem_map.mp hm2
        exact ⟨n, hn, rfl⟩
    · obtain ⟨w, hw, rfl⟩ := List.mem_map.mp hm1
      rw [hws w hw] at hsufm
      cases hsufm
  have hD1 : ∀ n ∈ N, (n ++ ".snapshot") ∈ snapshotNames p fs2 := by
    intro n hn
    refine (mem_snapshotNames p hstar fs2 _).mpr ⟨hC4 n hn, ?_, strSuffix_append n⟩
    rcases List.mem_cons.mp hn with rfl | hn'
    · have he : n ++ ".snapshot" = (n ++ ".") ++ "snapshot" := by
        rw [String.append_assoc]
        rfl
      rw [he]
      exact strStarts_self_append (n ++ ".") "snapshot"
    · exact strStarts_mono _ n _ (hstartsN n hn')
  have hD2 : ∀ m ∈ snapshotNames p fs2, ∃ n ∈ N, m = n ++ ".snapshot" := by
    intro m hm
    obtain ⟨hmem, _, hsuf⟩ := (mem_snapshotNames p hstar fs2 m).mp hm
    exact hC3 m hmem hsuf
  have hD3 : (snapshotNames p fs2).Nodup := List.Nodup.filter _ hC2
  set J2 := (snapshotNames p fs2).map (fun n => (n, stripSnapshot n)) with hJ2
  have hrestore : restoreOp p fs2 = copyFiles J2 fs2 := rfl
  have hJ2snd : J2.map Prod.snd = (snapshotNames p fs2).map stripSnapshot := by
    rw [hJ2, List.map_map]
    rfl
  have hE1 : (J2.map Prod.snd).Nodup := by
    rw [hJ2snd]
    refine List.Nodup.map_on ?_ hD3
    intro x hx y hy e
    obtain ⟨nx, _, rfl⟩ := hD2 x hx
    obtain ⟨ny, _, rfl⟩ := hD2 y hy
    rw [stripSnapshot_append, stripSnapshot_append] at e
    rw [e]
  have hE2 : ∀ j ∈ J2, ∀ j' ∈ J2, j.1 ≠ j'.2 := by
    intro j hj j' hj'
    rw [hJ2] at hj hj'
    obtain ⟨m, hm, rfl⟩ := List.mem_map.mp hj
    obtain ⟨m', hm', rfl⟩ := List.mem_map.mp hj'
    obtain ⟨n', hn', rfl⟩ := hD2 m' hm'
    rw [stripSnapshot_append]
    have hmsuf : strSuffix ".snapshot" m = true :=
      ((mem_snapshotNames p hstar fs2 m).mp hm).2.2
    exact (ne_of_snap_suffix (hA1 n' hn') hmsuf).symm
  intro n hn
  obtain ⟨v, hv⟩ := hA2 n hn
  rw [hv, hrestore]
  refine copyFiles_lookup_dest J2 fs2 (n ++ ".snapshot") n v ?_ hE1 hE2 (hC5 n hn v hv)
  rw [hJ2]
  refine List.mem_map.mpr ⟨n ++ ".snapshot", hD1 n hn, ?_⟩
  rw [stripSnapshot_append]

/-- C7, witness: primary `slurmdbd.conf` (content `A`) with include
`slurmdbd.conf.overrides` (content `B`); after `save`, overwriting both
files, and `restore`, both hold their original content. -/
theorem c7_snapshot_restore_witness :
    assocLookup (restoreOp "slurmdbd.conf" (applyWrites
      [("slurmdbd.conf", "X"), ("slurmdbd.conf.overrides", "Y")]
      (saveOp "slurmdbd.conf"
        [("slurmdbd.conf", "A"), ("slurmdbd.conf.overrides", "B")])))
      "slurmdbd.conf" = some "A" ∧
    assocLookup (restoreOp "slurmdbd.conf" (applyWrites
      [("slurmdbd.conf", "X"), ("slurmdbd.conf.overrides", "Y")]
      (saveOp "slurmdbd.conf"
        [("slurmdbd.conf", "A"), ("slurmdbd.conf.overrides", "B")])))
      "slurmdbd.conf.overrides" = some "B" := by
  have h := c7_snapshot_restore "slurmdbd.conf"
    [("slurmdbd.conf", "A"), ("slurmdbd.conf.overrides", "B")]
    [("slurmdbd.conf", "X"), ("slurmdbd.conf.overrides", "Y")] "A"
    (by decide) (by decide) (by decide) (by decide) (by decide) (by decide)
  exact ⟨(h "slurmdbd.conf" (by decide)).trans (by decide),
    (h "slurmdbd.conf.overrides" (by decide)).trans (by decide)⟩
